import Mathlib

/-!
# VectorSorting: quicksort and selection sort over bid titles

A shallow embedding of `partition`, `quickSort` and `selectionSort` of
`VectorSorting.cpp`, with the properties of the sorting core proved about it.

Modelling decisions.

* `vector<Bid>` is a `List Bid`; `bids[i]` on an index that is not a position
  of the vector is undefined behaviour in C++ and is the fault
  `Fault.outOfBounds` here.
* `std::string` is `String`; `operator<` is the lexicographic comparison
  `strLt`. `double amount` is carried as an uninterpreted number (the sorts
  only move it).
* `int` is 32 bits wide: every `int` addition and subtraction of the code
  (`begin + end`, `++low`, `--high`, `pivotIndex + 1`) is followed by `wrapInt`,
  the two's complement result, and every `size_t` value stored in an `int`
  (`minIndex = pos`, `minIndex = i`, the driver's `size - 1`) goes through
  `toInt32`. `size_t` is 64 bits wide: `subSizeT` and `succSizeT` wrap modulo
  `2 ^ 64`. An `int` index below zero converts to a `size_t` of at least
  `2 ^ 64 - 2 ^ 31`, which is no position of a vector: `getI` gives `none`.
  (Signed overflow is undefined behaviour in C++; the two's complement result
  is what the compiled code computes.) The properties of the sorts therefore
  hold up to a size: `end ≤ 2 ^ 30` for `quickSort`, `begin + end ≤ 2 ^ 31 - 1`
  for `partition`, `size ≤ 2 ^ 31` for `selectionSort`; beyond it the collections
  `huge30` and `huge31` make the code fault.
* Loops and the recursion of `quickSort` take a `fuel : Nat`; every loop test
  and every call consumes one unit, and `Fault.outOfFuel` is returned when it
  is used up. The theorems give a fuel that suffices.
* The state carries a trace of the element accesses (newest first), so that
  "no element is read" is a statement about the trace.
-/

namespace VectorSorting

/-! ## Data model -/

/-- A bid record (`struct Bid`). -/
structure Bid where
  bidId : String
  title : String
  fund : String
  amount : Nat
  deriving DecidableEq, Repr

/-- Ways in which a run of the model stops without a result. -/
inductive Fault where
  | outOfBounds
  | outOfFuel
  deriving DecidableEq, Repr

/-- Element accesses of the sorting code. -/
inductive Event where
  /-- The copy `string pivot = bids[i].title`. -/
  | pivot (i : Int)
  /-- The comparison `bids[i].title < pivot` or `bids[i].title > pivot`. -/
  | cmpPivot (i : Int)
  /-- The comparison `bids[i].title < bids[j].title`. -/
  | cmp (i j : Int)
  /-- The exchange `swap(bids[i], bids[j])`. -/
  | swap (i j : Int)
  deriving DecidableEq, Repr

/-- The vector together with the trace of accesses made so far (newest first). -/
structure State where
  bids : List Bid
  trace : List Event
  deriving DecidableEq, Repr

/-- The `operator<` of `std::string`: lexicographic order of the characters,
a shorter string coming before its extensions. (On UTF-8 text the order of the
bytes, which C++ compares, is the order of the code points.) -/
def strLt (a b : String) : Bool := decide (a.toList < b.toList)

/-- The element at a signed index, `none` outside `0 .. size-1`. -/
def getI (l : List Bid) (i : Int) : Option Bid :=
  if 0 ≤ i then l[i.toNat]? else none

/-- Evaluation of `bids[i]`. -/
def State.read (s : State) (i : Int) : Except Fault Bid :=
  match getI s.bids i with
  | some b => .ok b
  | none => .error .outOfBounds

/-- Append an event to the trace. -/
def State.log (s : State) (e : Event) : State :=
  { s with trace := e :: s.trace }

/-- The call `swap(bids[i], bids[j])`. -/
def State.swap (s : State) (i j : Int) : Except Fault State :=
  match getI s.bids i, getI s.bids j with
  | some a, some b =>
    .ok { bids := (s.bids.set i.toNat b).set j.toNat a, trace := .swap i j :: s.trace }
  | _, _ => .error .outOfBounds

/-! ## Machine integers -/

/-- The result of an `int` operation whose exact value is `x`: the 32-bit
two's complement value congruent to `x`. -/
def wrapInt (x : Int) : Int := (x + 2 ^ 31) % 2 ^ 32 - 2 ^ 31

/-- Subtraction of `size_t` values, wrapping modulo `2 ^ 64` below zero. -/
def subSizeT (a b : Nat) : Nat :=
  if b ≤ a then a - b else a + 2 ^ 64 - b

/-- Conversion of a `size_t` value to `int`: the low 32 bits, read as signed. -/
def toInt32 (n : Nat) : Int :=
  if n % 2 ^ 32 < 2 ^ 31 then ((n % 2 ^ 32 : Nat) : Int) else ((n % 2 ^ 32 : Nat) : Int) - 2 ^ 32

/-- The increment `++i` of a `size_t` value, wrapping modulo `2 ^ 64`. -/
def succSizeT (i : Nat) : Nat := (i + 1) % 2 ^ 64

/-! ## Quicksort -/

/-- The loop `while (bids[low].title < pivot) ++low;`. -/
def scanLow (pivot : String) : Nat → State → Int → Except Fault (Int × State)
  | 0, _, _ => .error .outOfFuel
  | fuel + 1, s, low =>
    match s.read low with
    | .error e => .error e
    | .ok b =>
      if strLt b.title pivot then scanLow pivot fuel (s.log (.cmpPivot low)) (wrapInt (low + 1))
      else .ok (low, s.log (.cmpPivot low))

/-- The loop `while (bids[high].title > pivot) --high;`. -/
def scanHigh (pivot : String) : Nat → State → Int → Except Fault (Int × State)
  | 0, _, _ => .error .outOfFuel
  | fuel + 1, s, high =>
    match s.read high with
    | .error e => .error e
    | .ok b =>
      if strLt pivot b.title then scanHigh pivot fuel (s.log (.cmpPivot high)) (wrapInt (high - 1))
      else .ok (high, s.log (.cmpPivot high))

/-- The loop `while (true)` of `partition`, with `++low; --high;` after the
exchange. -/
def partitionLoop (pivot : String) : Nat → State → Int → Int → Except Fault (Int × State)
  | 0, _, _, _ => .error .outOfFuel
  | fuel + 1, s, low, high =>
    match scanLow pivot fuel s low with
    | .error e => .error e
    | .ok (low1, s1) =>
      match scanHigh pivot fuel s1 high with
      | .error e => .error e
      | .ok (high1, s2) =>
        if low1 ≥ high1 then .ok (high1, s2)
        else
          match s2.swap low1 high1 with
          | .error e => .error e
          | .ok s3 => partitionLoop pivot fuel s3 (wrapInt (low1 + 1)) (wrapInt (high1 - 1))

/-- The function `partition(bids, begin, end)`; the result is the returned index
and the state after the call. -/
def partition (fuel : Nat) (s : State) (begin end_ : Int) : Except Fault (Int × State) :=
  match s.read ((wrapInt (begin + end_)).tdiv 2) with
  | .error e => .error e
  | .ok b =>
    partitionLoop b.title fuel (s.log (.pivot ((wrapInt (begin + end_)).tdiv 2))) begin end_

/-- The function `quickSort(bids, begin, end)`. -/
def quickSort : Nat → State → Int → Int → Except Fault State
  | 0, _, _, _ => .error .outOfFuel
  | fuel + 1, s, begin, end_ =>
    if begin ≥ end_ then .ok s
    else
      match partition fuel s begin end_ with
      | .error e => .error e
      | .ok (pivotIndex, s1) =>
        match quickSort fuel s1 begin pivotIndex with
        | .error e => .error e
        | .ok s2 => quickSort fuel s2 (wrapInt (pivotIndex + 1)) end_

/-! ## Selection sort -/

/-- The inner loop `for (size_t i = pos + 1; i < size; ++i)` of `selectionSort`,
started at `i` with the current `int minIndex`; returns the final `minIndex`.
The assignment `minIndex = i` narrows the `size_t` to `int`. -/
def minLoop (size : Nat) : Nat → State → Nat → Int → Except Fault (Int × State)
  | 0, _, _, _ => .error .outOfFuel
  | fuel + 1, s, i, minIndex =>
    if i < size then
      match s.read i, s.read minIndex with
      | .ok a, .ok b =>
        if strLt a.title b.title then
          minLoop size fuel (s.log (.cmp i minIndex)) (succSizeT i) (toInt32 i)
        else minLoop size fuel (s.log (.cmp i minIndex)) (succSizeT i) minIndex
      | _, _ => .error .outOfBounds
    else .ok (minIndex, s)

/-- The outer loop `for (size_t pos = 0; pos < size - 1; ++pos)` of
`selectionSort`, started at `pos`; `int minIndex = pos` narrows the `size_t`
to `int`. -/
def selectionLoop (size : Nat) : Nat → State → Nat → Except Fault State
  | 0, _, _ => .error .outOfFuel
  | fuel + 1, s, pos =>
    if pos < subSizeT size 1 then
      match minLoop size fuel s (succSizeT pos) (toInt32 pos) with
      | .error e => .error e
      | .ok (minIndex, s1) =>
        match s1.swap pos minIndex with
        | .error e => .error e
        | .ok s2 => selectionLoop size fuel s2 (succSizeT pos)
    else .ok s

/-- The function `selectionSort(bids)`. -/
def selectionSort (fuel : Nat) (s : State) : Except Fault State :=
  selectionLoop s.bids.length fuel s 0

/-- The driver's call `quickSort(bids, 0, bids.size() - 1)` in `main`. -/
def quickSortAll (fuel : Nat) (s : State) : Except Fault State :=
  quickSort fuel s 0 (toInt32 (subSizeT s.bids.length 1))

/-- Build a record from an identifier and a title. -/
def mkBid (bidId title : String) : Bid :=
  { bidId := bidId, title := title, fund := "", amount := 0 }

/-- The titles of a collection, in order. -/
def titles (l : List Bid) : List String := l.map Bid.title

/-- Two records with the same title, already in ascending order. -/
def twoEqual : List Bid := [mkBid "1" "A", mkBid "2" "A"]

/-- Three records, the first two with the same title, the third with a
smaller one. -/
def bba : List Bid := [mkBid "1" "B", mkBid "2" "B", mkBid "3" "A"]

/-- Three records in ascending order of title, the first two with the same
title and the third with a title of its own. -/
def aab : List Bid := [mkBid "1" "A", mkBid "2" "A", mkBid "3" "B"]

/-- The records at the positions `b .. e` are in ascending order of title:
each one is at most its right neighbour. -/
def SortedOn (l : List Bid) (b e : Int) : Prop :=
  ∀ i x y, b ≤ i → i < e → getI l i = some x → getI l (i + 1) = some y → x.title ≤ y.title

/-- The list `l1` is reached from `l` by exchanging pairs of positions that
all lie within `b .. e`. -/
inductive SwapsIn (b e : Int) : List Bid → List Bid → Prop
  | refl (l : List Bid) : SwapsIn b e l l
  | step {l l1 : List Bid} (i j : Int) (x y : Bid) :
      b ≤ i → i ≤ e → b ≤ j → j ≤ e → getI l i = some x → getI l j = some y →
      SwapsIn b e ((l.set i.toNat y).set j.toNat x) l1 → SwapsIn b e l l1

/-! ## Element access -/

theorem strLt_iff {a b : String} : strLt a b = true ↔ a < b := by
  simp [strLt]

theorem strLt_false_iff {a b : String} : strLt a b = false ↔ b ≤ a := by
  rw [← not_lt, ← strLt_iff]; simp

theorem getI_bounds {l : List Bid} {i : Int} {x : Bid} (h : getI l i = some x) :
    0 ≤ i ∧ i < l.length := by
  unfold getI at h
  split at h
  · have := (List.getElem?_eq_some_iff.mp h).1
    omega
  · simp at h

theorem getI_exists {l : List Bid} {i : Int} (h0 : 0 ≤ i) (h1 : i < l.length) :
    ∃ x, getI l i = some x := by
  have h2 : i.toNat < l.length := by omega
  exact ⟨l[i.toNat], by simp [getI, h0, List.getElem?_eq_getElem h2]⟩

theorem getI_natCast (l : List Bid) (n : Nat) : getI l (n : Int) = l[n]? := by
  simp [getI]

theorem read_of_getI {s : State} {i : Int} {x : Bid} (h : getI s.bids i = some x) :
    s.read i = .ok x := by
  simp [State.read, h]

/-- The list after exchanging the elements at positions `i` and `j`. -/
theorem getI_set_set {l : List Bid} {i j : Int} {a b : Bid}
    (hi : getI l i = some a) (hj : getI l j = some b) (k : Int) :
    getI ((l.set i.toNat b).set j.toNat a) k =
      if k = j then some a else if k = i then some b else getI l k := by
  have bi := getI_bounds hi
  have bj := getI_bounds hj
  by_cases hk0 : 0 ≤ k
  · by_cases hkj : k = j
    · subst hkj
      have h3 : k.toNat < l.length := by omega
      simp [getI, hk0, List.getElem?_set, h3]
    · by_cases hki : k = i
      · subst hki
        have h1 : ¬ j.toNat = k.toNat := by omega
        have h2 : k.toNat < l.length := by omega
        simp [getI, hk0, List.getElem?_set, h1, h2, hkj]
      · have h1 : ¬ j.toNat = k.toNat := by omega
        have h2 : ¬ i.toNat = k.toNat := by omega
        simp [getI, hk0, List.getElem?_set, h1, h2, hkj, hki]
  · have h1 : ¬ k = j := by omega
    have h2 : ¬ k = i := by omega
    simp [getI, hk0, h1, h2]

theorem set_set_perm_self {l : List Bid} {i j : Nat} (hi : i < l.length) (hj : j < l.length) :
    ((l.set i l[j]).set j l[i]).Perm l := by
  rw [List.perm_iff_count]
  intro x
  have hj1 : j < (l.set i l[j]).length := by simpa using hj
  rw [List.count_set _ _ _ _ hj1, List.count_set _ _ _ _ hi]
  have hget : (l.set i l[j])[j] = l[j] := by
    rw [List.getElem_set]; split
    · rfl
    · rfl
  rw [hget]
  by_cases hA : l[i] = x
  · have hpos : 0 < List.count x l := by
      rw [List.count_pos_iff]; exact hA ▸ List.getElem_mem hi
    by_cases hB : l[j] = x
    · simp [hA, hB]; omega
    · simp [hA, hB]; omega
  · by_cases hB : l[j] = x
    · simp [hA, hB]
    · simp [hA, hB]

theorem getI_set_set_perm {l : List Bid} {i j : Int} {a b : Bid}
    (hi : getI l i = some a) (hj : getI l j = some b) :
    ((l.set i.toNat b).set j.toNat a).Perm l := by
  have bi := getI_bounds hi
  have bj := getI_bounds hj
  have hi1 : i.toNat < l.length := by omega
  have hj1 : j.toNat < l.length := by omega
  have ea : a = l[i.toNat] := by
    simp [getI, bi.1, List.getElem?_eq_getElem hi1] at hi; exact hi.symm
  have eb : b = l[j.toNat] := by
    simp [getI, bj.1, List.getElem?_eq_getElem hj1] at hj; exact hj.symm
  subst ea eb
  exact set_set_perm_self hi1 hj1

theorem swap_ok {s : State} {i j : Int} {a b : Bid}
    (hi : getI s.bids i = some a) (hj : getI s.bids j = some b) :
    s.swap i j =
      .ok { bids := (s.bids.set i.toNat b).set j.toNat a, trace := .swap i j :: s.trace } := by
  simp [State.swap, hi, hj]

/-! ## Exchanges within a range -/

theorem SwapsIn.trans {b e : Int} {l l1 l2 : List Bid}
    (h1 : SwapsIn b e l l1) (h2 : SwapsIn b e l1 l2) : SwapsIn b e l l2 := by
  induction h1 with
  | refl _ => exact h2
  | step i j x y hbi hie hbj hje hi hj _ ih => exact .step i j x y hbi hie hbj hje hi hj (ih h2)

theorem SwapsIn.mono {b e b1 e1 : Int} {l l1 : List Bid}
    (h : SwapsIn b e l l1) (hb : b1 ≤ b) (he : e ≤ e1) : SwapsIn b1 e1 l l1 := by
  induction h with
  | refl _ => exact .refl _
  | step i j x y hbi hie hbj hje hi hj _ ih =>
    exact .step i j x y (by omega) (by omega) (by omega) (by omega) hi hj ih

theorem SwapsIn.length_eq {b e : Int} {l l1 : List Bid} (h : SwapsIn b e l l1) :
    l1.length = l.length := by
  induction h with
  | refl _ => rfl
  | step i j x y _ _ _ _ _ _ _ ih => simpa using ih

theorem SwapsIn.perm {b e : Int} {l l1 : List Bid} (h : SwapsIn b e l l1) : l1.Perm l := by
  induction h with
  | refl _ => exact List.Perm.refl _
  | step i j x y _ _ _ _ hi hj _ ih => exact ih.trans (getI_set_set_perm hi hj)

/-- Positions outside the range keep their record. -/
theorem SwapsIn.frame {b e : Int} {l l1 : List Bid} (h : SwapsIn b e l l1)
    (k : Int) (hk : k < b ∨ e < k) : getI l1 k = getI l k := by
  induction h with
  | refl _ => rfl
  | step i j x y hbi hie hbj hje hi hj _ ih =>
    rw [ih, getI_set_set hi hj]
    have h1 : ¬ k = j := by omega
    have h2 : ¬ k = i := by omega
    simp [h1, h2]

/-- A property shared by all records of a range that contains the exchanges
is kept. -/
theorem SwapsIn.forall_range {b e : Int} {l l1 : List Bid} (h : SwapsIn b e l l1)
    (P : Bid → Prop) (b1 e1 : Int) (hb : b1 ≤ b) (he : e ≤ e1)
    (hP : ∀ k z, b1 ≤ k → k ≤ e1 → getI l k = some z → P z) :
    ∀ k z, b1 ≤ k → k ≤ e1 → getI l1 k = some z → P z := by
  induction h with
  | refl _ => exact hP
  | step i j x y hbi hie hbj hje hi hj _ ih =>
    apply ih
    intro k z hk1 hk2 hget
    rw [getI_set_set hi hj] at hget
    split at hget
    · cases hget; exact hP i _ (by omega) (by omega) hi
    · split at hget
      · cases hget; exact hP j _ (by omega) (by omega) hj
      · exact hP k z hk1 hk2 hget

/-! ## Machine integers in range -/

theorem wrapInt_of_range {x : Int} (h1 : -2 ^ 31 ≤ x) (h2 : x < 2 ^ 31) : wrapInt x = x := by
  unfold wrapInt
  omega

theorem scanLow_spec (pivot : String) : ∀ (fuel : Nat) (s : State) (low k : Int) (y : Bid),
    0 ≤ low → low ≤ k → k ≤ 2 ^ 31 - 1 → getI s.bids k = some y →
    strLt y.title pivot = false → k - low + 1 ≤ fuel →
    ∃ low1 s1, scanLow pivot fuel s low = .ok (low1, s1) ∧ s1.bids = s.bids ∧
      low ≤ low1 ∧ low1 ≤ k ∧
      (∀ j x, low ≤ j → j < low1 → getI s.bids j = some x → strLt x.title pivot = true) ∧
      (∀ x, getI s.bids low1 = some x → strLt x.title pivot = false) := by
  intro fuel
  induction fuel with
  | zero => intro s low k y h0 hk hk31 hy hstop hfuel; omega
  | succ fuel ih =>
    intro s low k y h0 hk hk31 hy hstop hfuel
    have hkb := getI_bounds hy
    obtain ⟨b, hb⟩ := @getI_exists s.bids low h0 (by omega)
    by_cases hlt : strLt b.title pivot = true
    · have hne : low ≠ k := by
        intro h; subst h; rw [hy] at hb; cases hb; rw [hstop] at hlt; cases hlt
      have hw : wrapInt (low + 1) = low + 1 := wrapInt_of_range (by omega) (by omega)
      obtain ⟨low1, s1, hrun, hbids, h1, h2, h3, h4⟩ :=
        ih (s.log (.cmpPivot low)) (low + 1) k y (by omega) (by omega) hk31 hy hstop (by omega)
      refine ⟨low1, s1, ?_, hbids, by omega, h2, ?_, h4⟩
      · simp [scanLow, read_of_getI hb, hlt, hw, hrun]
      · intro j x hj1 hj2 hx
        by_cases hj : j = low
        · subst hj; rw [hb] at hx; cases hx; exact hlt
        · exact h3 j x (by omega) hj2 hx
    · refine ⟨low, s.log (.cmpPivot low), ?_, rfl, le_refl _, hk, ?_, ?_⟩
      · simp [scanLow, read_of_getI hb, hlt]
      · intro j x hj1 hj2; omega
      · intro x hx; rw [hb] at hx; cases hx; simpa using hlt

theorem scanHigh_spec (pivot : String) : ∀ (fuel : Nat) (s : State) (high k : Int) (y : Bid),
    k ≤ high → high < s.bids.length → high ≤ 2 ^ 31 - 1 → getI s.bids k = some y →
    strLt pivot y.title = false → high - k + 1 ≤ fuel →
    ∃ high1 s1, scanHigh pivot fuel s high = .ok (high1, s1) ∧ s1.bids = s.bids ∧
      k ≤ high1 ∧ high1 ≤ high ∧
      (∀ j x, high1 < j → j ≤ high → getI s.bids j = some x → strLt pivot x.title = true) ∧
      (∀ x, getI s.bids high1 = some x → strLt pivot x.title = false) := by
  intro fuel
  induction fuel with
  | zero => intro s high k y hk hlen h31 hy hstop hfuel; omega
  | succ fuel ih =>
    intro s high k y hk hlen h31 hy hstop hfuel
    have hkb := getI_bounds hy
    obtain ⟨b, hb⟩ := @getI_exists s.bids high (by omega) hlen
    by_cases hlt : strLt pivot b.title = true
    · have hne : high ≠ k := by
        intro h; subst h; rw [hy] at hb; cases hb; rw [hstop] at hlt; cases hlt
      have hw : wrapInt (high - 1) = high - 1 := wrapInt_of_range (by omega) (by omega)
      obtain ⟨high1, s1, hrun, hbids, h1, h2, h3, h4⟩ :=
        ih (s.log (.cmpPivot high)) (high - 1) k y (by omega)
          (by show high - 1 < (s.bids.length : Int); omega) (by omega) hy hstop (by omega)
      refine ⟨high1, s1, ?_, hbids, h1, by omega, ?_, h4⟩
      · simp [scanHigh, read_of_getI hb, hlt, hw, hrun]
      · intro j x hj1 hj2 hx
        by_cases hj : j = high
        · subst hj; rw [hb] at hx; cases hx; exact hlt
        · exact h3 j x hj1 (by omega) hx
    · refine ⟨high, s.log (.cmpPivot high), ?_, rfl, hk, le_refl _, ?_, ?_⟩
      · simp [scanHigh, read_of_getI hb, hlt]
      · intro j x hj1 hj2; omega
      · intro x hx; rw [hb] at hx; cases hx; simpa using hlt

theorem partitionLoop_spec (pivot : String) (begin end_ : Int) (hb0 : 0 ≤ begin)
    (h31 : end_ ≤ 2 ^ 31 - 1) :
    ∀ (fuel : Nat) (s : State) (low high : Int),
    end_ < s.bids.length → begin ≤ low → high ≤ end_ →
    (∀ j x, begin ≤ j → j < low → getI s.bids j = some x → x.title ≤ pivot) →
    (∀ j x, high < j → j ≤ end_ → getI s.bids j = some x → pivot ≤ x.title) →
    (∃ k y, low ≤ k ∧ k ≤ high + 1 ∧ k ≤ end_ ∧ getI s.bids k = some y ∧
      strLt y.title pivot = false ∧ (begin < end_ → high < end_ ∨ k < end_)) →
    (∃ k y, low - 1 ≤ k ∧ begin ≤ k ∧ k ≤ high ∧ getI s.bids k = some y ∧
      strLt pivot y.title = false) →
    high - low + 3 ≤ fuel →
    ∃ p s1, partitionLoop pivot fuel s low high = .ok (p, s1) ∧
      SwapsIn begin end_ s.bids s1.bids ∧ begin ≤ p ∧ p ≤ end_ ∧ (begin < end_ → p < end_) ∧
      (∀ j x, begin ≤ j → j ≤ p → getI s1.bids j = some x → x.title ≤ pivot) ∧
      (∀ j x, p < j → j ≤ end_ → getI s1.bids j = some x → pivot ≤ x.title) := by
  intro fuel
  induction fuel with
  | zero =>
    intro s low high hlen hlow hhigh hI2 hI3 hA hB hfuel
    obtain ⟨ka, _, ha1, ha2, _⟩ := hA
    omega
  | succ fuel ih =>
    intro s low high hlen hlow hhigh hI2 hI3 hA hB hfuel
    obtain ⟨ka, ya, ha1, ha2, ha3, hya, hstopa, hlast⟩ := hA
    obtain ⟨kb, yb, hb1, hb2, hb3, hyb, hstopb⟩ := hB
    obtain ⟨low1, s1, hrun1, hbids1, hl1, hl2, hl3, hl4⟩ :=
      scanLow_spec pivot fuel s low ka ya (by omega) ha1 (by omega) hya hstopa (by omega)
    obtain ⟨high1, s2, hrun2, hbids2, hh1, hh2, hh3, hh4⟩ :=
      scanHigh_spec pivot fuel s1 high kb yb hb3 (by rw [hbids1]; omega) (by omega)
        (by rw [hbids1]; exact hyb) hstopb (by omega)
    rw [hbids1] at hh3 hh4
    have hs2 : s2.bids = s.bids := by rw [hbids2, hbids1]
    obtain ⟨a, ha⟩ := @getI_exists s.bids low1 (by omega) (by omega)
    obtain ⟨b, hb⟩ := @getI_exists s.bids high1 (by omega) (by omega)
    have hpa : pivot ≤ a.title := strLt_false_iff.mp (hl4 a ha)
    have hbp : b.title ≤ pivot := strLt_false_iff.mp (hh4 b hb)
    by_cases hcross : low1 ≥ high1
    · refine ⟨high1, s2, ?_, ?_, by omega, by omega, ?_, ?_, ?_⟩
      · simp [partitionLoop, hrun1, hrun2, hcross]
      · rw [hs2]; exact .refl _
      · intro hbe
        rcases hlast hbe with h | h <;> omega
      · intro j x hj1 hj2 hx
        rw [hs2] at hx
        by_cases hjl : j < low
        · exact hI2 j x hj1 hjl hx
        · by_cases hjl1 : j < low1
          · exact le_of_lt (strLt_iff.mp (hl3 j x (by omega) hjl1 hx))
          · have hj : j = high1 := by omega
            subst hj; rw [hb] at hx; cases hx; exact hbp
      · intro j x hj1 hj2 hx
        rw [hs2] at hx
        by_cases hjh : high < j
        · exact hI3 j x hjh hj2 hx
        · exact le_of_lt (strLt_iff.mp (hh3 j x hj1 (by omega) hx))
    · have hlt : low1 < high1 := by omega
      have ha2s : getI s2.bids low1 = some a := by rw [hs2]; exact ha
      have hb2s : getI s2.bids high1 = some b := by rw [hs2]; exact hb
      have hswap := swap_ok ha2s hb2s
      rw [hs2] at hswap
      have hget := @getI_set_set s.bids low1 high1 a b ha hb
      have hw1 : wrapInt (low1 + 1) = low1 + 1 := wrapInt_of_range (by omega) (by omega)
      have hw2 : wrapInt (high1 - 1) = high1 - 1 := wrapInt_of_range (by omega) (by omega)
      obtain ⟨p, s4, hrun4, hsw4, hp1, hp2, hp3, hp4, hp5⟩ :=
        ih { bids := (s.bids.set low1.toNat b).set high1.toNat a,
             trace := .swap low1 high1 :: s2.trace } (low1 + 1) (high1 - 1)
          (by simpa using hlen) (by omega) (by omega)
          (by
            intro j x hj1 hj2 hx
            simp only [] at hx
            rw [hget] at hx
            have h1 : ¬ j = high1 := by omega
            simp only [h1, if_false] at hx
            split at hx
            · cases hx; exact hbp
            · by_cases hjl : j < low
              · exact hI2 j x hj1 hjl hx
              · exact le_of_lt (strLt_iff.mp (hl3 j x (by omega) (by omega) hx)))
          (by
            intro j x hj1 hj2 hx
            simp only [] at hx
            rw [hget] at hx
            split at hx
            · cases hx; exact hpa
            · have h1 : ¬ j = low1 := by omega
              simp only [h1, if_false] at hx
              by_cases hjh : high < j
              · exact hI3 j x hjh hj2 hx
              · exact le_of_lt (strLt_iff.mp (hh3 j x (by omega) (by omega) hx)))
          ⟨high1, a, by omega, by omega, by omega, by simp [hget],
            hl4 a ha, fun _ => Or.inl (by omega)⟩
          ⟨low1, b, by omega, by omega, by omega, by
            have h1 : ¬ low1 = high1 := by omega
            simp [hget, h1], hh4 b hb⟩
          (by omega)
      refine ⟨p, s4, ?_, ?_, hp1, hp2, hp3, hp4, hp5⟩
      · simp [partitionLoop, hrun1, hrun2, hcross, hswap, hw1, hw2, hrun4]
      · exact .step low1 high1 a b (by omega) (by omega) (by omega) (by omega) ha hb hsw4

theorem mid_bounds {begin end_ : Int} (hb0 : 0 ≤ begin) (hbe : begin ≤ end_)
    (h31 : begin + end_ ≤ 2 ^ 31 - 1) :
    (wrapInt (begin + end_)).tdiv 2 = (begin + end_) / 2 ∧
      begin ≤ (wrapInt (begin + end_)).tdiv 2 ∧ (wrapInt (begin + end_)).tdiv 2 ≤ end_ ∧
      (begin < end_ → (wrapInt (begin + end_)).tdiv 2 < end_) := by
  rw [wrapInt_of_range (by omega) (by omega), Int.tdiv_eq_ediv (by omega) (by omega)]
  omega

theorem partition_spec (fuel : Nat) (s : State) (begin end_ : Int)
    (hb0 : 0 ≤ begin) (hbe : begin ≤ end_) (hlen : end_ < s.bids.length)
    (h31 : begin + end_ ≤ 2 ^ 31 - 1) (hfuel : end_ - begin + 3 ≤ fuel) :
    ∃ pv p s1, getI s.bids ((begin + end_) / 2) = some pv ∧
      partition fuel s begin end_ = .ok (p, s1) ∧
      SwapsIn begin end_ s.bids s1.bids ∧ begin ≤ p ∧ p ≤ end_ ∧ (begin < end_ → p < end_) ∧
      (∀ j x, begin ≤ j → j ≤ p → getI s1.bids j = some x → x.title ≤ pv.title) ∧
      (∀ j x, p < j → j ≤ end_ → getI s1.bids j = some x → pv.title ≤ x.title) := by
  obtain ⟨hmid, hm1, hm2, hm3⟩ := mid_bounds hb0 hbe h31
  obtain ⟨pv, hpv⟩ :=
    @getI_exists s.bids ((wrapInt (begin + end_)).tdiv 2) (by omega) (by omega)
  have hirr : strLt pv.title pv.title = false := strLt_false_iff.mpr (le_refl _)
  obtain ⟨p, s1, hrun, hsw, h1, h2, h3, h4, h5⟩ :=
    partitionLoop_spec pv.title begin end_ hb0 (by omega) fuel
      (s.log (.pivot ((wrapInt (begin + end_)).tdiv 2))) begin end_ hlen (le_refl _)
      (le_refl _)
      (by intro j x hj1 hj2; omega) (by intro j x hj1 hj2; omega)
      ⟨_, pv, hm1, by omega, hm2, hpv, hirr, fun h => Or.inr (hm3 h)⟩
      ⟨_, pv, by omega, hm1, hm2, hpv, hirr⟩ (by omega)
  refine ⟨pv, p, s1, by rw [← hmid]; exact hpv, ?_, hsw, h1, h2, h3, h4, h5⟩
  simp [partition, read_of_getI hpv, hrun]

/-! ## Quicksort -/

theorem quickSort_spec : ∀ (fuel : Nat) (s : State) (begin end_ : Int),
    0 ≤ begin → begin ≤ end_ → end_ < s.bids.length → end_ ≤ 2 ^ 30 →
    end_ - begin + 4 ≤ fuel →
    ∃ s1, quickSort fuel s begin end_ = .ok s1 ∧ SwapsIn begin end_ s.bids s1.bids ∧
      SortedOn s1.bids begin end_ := by
  intro fuel
  induction fuel with
  | zero => intro s begin end_ hb0 hbe hlen h30 hfuel; omega
  | succ fuel ih =>
    intro s begin end_ hb0 hbe hlen h30 hfuel
    by_cases hbase : begin ≥ end_
    · refine ⟨s, by simp [quickSort, hbase], .refl _, ?_⟩
      intro i x y hi1 hi2; omega
    · obtain ⟨pv, p, s1, hpv, hrun1, hsw1, hp1, hp2, hp3, hle, hge⟩ :=
        partition_spec fuel s begin end_ hb0 hbe hlen (by omega) (by omega)
      have hp4 : p < end_ := hp3 (by omega)
      have hlen1 : s1.bids.length = s.bids.length := hsw1.length_eq
      have hw : wrapInt (p + 1) = p + 1 := wrapInt_of_range (by omega) (by omega)
      obtain ⟨s2, hrun2, hsw2, hsorted2⟩ :=
        ih s1 begin p hb0 hp1 (by rw [hlen1]; omega) (by omega) (by omega)
      have hlen2 : s2.bids.length = s1.bids.length := hsw2.length_eq
      obtain ⟨s3, hrun3, hsw3, hsorted3⟩ :=
        ih s2 (p + 1) end_ (by omega) (by omega) (by rw [hlen2, hlen1]; omega) h30 (by omega)
      refine ⟨s3, ?_, ?_, ?_⟩
      · simp [quickSort, hbase, hrun1, hrun2, hw, hrun3]
      · exact hsw1.trans ((hsw2.mono (le_refl _) (by omega)).trans
          (hsw3.mono (by omega) (le_refl _)))
      · intro i x y hi1 hi2 hx hy
        by_cases hip : i < p
        · rw [hsw3.frame i (Or.inl (by omega))] at hx
          rw [hsw3.frame (i + 1) (Or.inl (by omega))] at hy
          exact hsorted2 i x y hi1 hip hx hy
        · by_cases hip2 : p < i
          · exact hsorted3 i x y (by omega) hi2 hx hy
          · have hi : i = p := by omega
            subst hi
            rw [hsw3.frame i (Or.inl (by omega))] at hx
            have hxle : x.title ≤ pv.title :=
              hsw2.forall_range (fun z => z.title ≤ pv.title) begin i (le_refl _) (le_refl _)
                hle i x hi1 (le_refl _) hx
            have hge2 : ∀ k z, i + 1 ≤ k → k ≤ end_ → getI s2.bids k = some z →
                pv.title ≤ z.title := by
              intro k z hk1 hk2 hz
              rw [hsw2.frame k (Or.inr (by omega))] at hz
              exact hge k z (by omega) hk2 hz
            have hyge : pv.title ≤ y.title :=
              hsw3.forall_range (fun z => pv.title ≤ z.title) (i + 1) end_ (le_refl _)
                (le_refl _) hge2 (i + 1) y (le_refl _) (by omega) hy
            exact le_trans hxle hyge

/-! ## The accesses of `partition` and `quickSort` -/

/-- In a range in ascending order every record is at most every later one. -/
theorem SortedOn.le_of_le {l : List Bid} {b e : Int} (h : SortedOn l b e) (hb0 : 0 ≤ b)
    (hlen : e < l.length) :
    ∀ (d : Nat) (i j : Int) (x y : Bid), b ≤ i → j ≤ e → j = i + d →
      getI l i = some x → getI l j = some y → x.title ≤ y.title := by
  intro d
  induction d with
  | zero =>
    intro i j x y hi hj hd hx hy
    have : j = i := by omega
    subst this; rw [hx] at hy; cases hy; exact le_refl _
  | succ d ih =>
    intro i j x y hi hj hd hx hy
    obtain ⟨z, hz⟩ := @getI_exists l (i + d) (by omega) (by omega)
    have h1 := ih i (i + d) x z hi (by omega) rfl hx hz
    have h2 := h (i + d) z y (by omega) (by omega) hz
      (by rw [show i + (d : Int) + 1 = j by omega]; exact hy)
    exact le_trans h1 h2

/-! ## Selection sort -/

theorem getI_getElem (l : List Bid) (i : Nat) (h : i < l.length) :
    getI l (i : Int) = some l[i] := by
  rw [getI_natCast, List.getElem?_eq_getElem h]

theorem sortedOn_titles_sorted {l : List Bid} (h : SortedOn l 0 ((l.length : Int) - 1)) :
    (titles l).Sorted (· ≤ ·) := by
  unfold List.Sorted
  rw [List.pairwise_iff_getElem]
  intro i j hi hj hij
  simp only [titles, List.length_map] at hi hj
  simp only [titles, List.getElem_map]
  exact h.le_of_le (le_refl _) (by omega) (j - i) (i : Int) (j : Int) l[i] l[j] (by omega)
    (by omega) (by omega) (getI_getElem l i hi) (getI_getElem l j hj)

/-- Two arrangements of the same records that are both in ascending order of
title carry the same title at every position. -/
theorem titles_eq_of_sorted_perm {l l1 : List Bid} (hp : l1.Perm l)
    (h : SortedOn l 0 ((l.length : Int) - 1)) (h1 : SortedOn l1 0 ((l1.length : Int) - 1)) :
    titles l1 = titles l :=
  List.eq_of_perm_of_sorted (hp.map Bid.title) (sortedOn_titles_sorted h1)
    (sortedOn_titles_sorted h)

theorem getI_title_of_titles_eq {l l1 : List Bid} (h : titles l1 = titles l) {i : Int}
    {x z : Bid} (hx : getI l i = some x) (hz : getI l1 i = some z) : z.title = x.title := by
  have hb := getI_bounds hx
  have hb1 := getI_bounds hz
  have e1 : (titles l1)[i.toNat]? = some z.title := by
    simp only [getI, hb1.1, if_true] at hz
    simp [titles, hz]
  have e2 : (titles l)[i.toNat]? = some x.title := by
    simp only [getI, hb.1, if_true] at hx
    simp [titles, hx]
  rw [h, e2] at e1
  exact (Option.some.inj e1).symm

theorem exists_getI_of_mem {l : List Bid} {z : Bid} (h : z ∈ l) : ∃ j : Int, getI l j = some z := by
  obtain ⟨n, hn, hz⟩ := List.getElem_of_mem h
  exact ⟨(n : Int), by rw [getI_getElem l n hn, hz]⟩

theorem mem_of_getI {l : List Bid} {z : Bid} {j : Int} (h : getI l j = some z) : z ∈ l := by
  have hb := getI_bounds h
  simp only [getI, hb.1, if_true] at h
  exact List.mem_iff_getElem?.mpr ⟨_, h⟩

/-! ## Slices -/

/-- A collection of size 1 is returned by `selectionSort` without any element
access: the outer loop makes no iteration. -/
theorem selectionSort_singleton (fuel : Nat) (b : Bid) (trace : List Event) :
    selectionSort (fuel + 1) (State.mk [b] trace) = .ok (State.mk [b] trace) := by
  simp [selectionSort, selectionLoop, subSizeT]

/-- C5 (at the empty collection): the bound `size - 1` of the outer loop of
`selectionSort` is `2 ^ 64 - 1` for size 0, the loop is entered with `pos = 0`,
and `swap(bids[0], bids[0])` accesses an element that does not exist. -/
theorem selectionSort_empty_outOfBounds (fuel : Nat) (trace : List Event) :
    subSizeT 0 1 = 2 ^ 64 - 1 ∧
      selectionSort (fuel + 2) (State.mk [] trace) = .error .outOfBounds := by
  constructor
  · rfl
  · have h : 0 < subSizeT 0 1 := by decide
    have h1 : succSizeT 0 = 1 := by decide
    have h2 : toInt32 0 = 0 := by decide
    simp [selectionSort, selectionLoop, h, h1, h2, minLoop, State.swap, getI]

/-- C6: for signed `begin ≥ end` the call `quickSort(bids, begin, end)` returns
at once with the state unchanged: the collection is the same and the trace of
element accesses has not grown, so `partition` was not called and no element
was read, whatever the indices are. On an empty collection the driver computes
`end` as `-1` (`size - 1` wraps to `2 ^ 64 - 1`, whose conversion to `int` is
`-1`) and its call returns the empty collection untouched. -/
theorem quickSort_base (fuel : Nat) (s : State) (begin end_ : Int) (trace : List Event)
    (h : begin ≥ end_) :
    quickSort (fuel + 1) s begin end_ = .ok s ∧
      toInt32 (subSizeT ([] : List Bid).length 1) = -1 ∧
      quickSortAll (fuel + 1) (State.mk [] trace) = .ok (State.mk [] trace) := by
  have h1 : toInt32 (subSizeT ([] : List Bid).length 1) = -1 := by decide
  refine ⟨by simp [quickSort, h], h1, ?_⟩
  have h2 : toInt32 (subSizeT 0 1) = -1 := h1
  simp only [quickSortAll, List.length_nil, h2]
  simp [quickSort]

theorem quickSort_base_witness :
    ((0 : Int) ≥ 0) ∧
    (quickSort (0 + 1) (State.mk [mkBid "1" "X"] []) 0 0 = .ok (State.mk [mkBid "1" "X"] []) ∧
      toInt32 (subSizeT ([] : List Bid).length 1) = -1 ∧
      quickSortAll (0 + 1) (State.mk [] []) = .ok (State.mk [] [])) :=
  ⟨by decide, quickSort_base 0 (State.mk [mkBid "1" "X"] []) 0 0 [] (by decide)⟩

/-- C8 (as stated, refuted): the two records `("1", "A")`, `("2", "A")` are in
ascending order of title, and `quickSort(bids, 0, 1)` returns them in the
opposite order, so the output is not identical to the input. -/
theorem quickSort_sorted_not_identical :
    (∀ i x y, (0 : Int) ≤ i → i < 1 → getI twoEqual i = some x →
      getI twoEqual (i + 1) = some y → x.title ≤ y.title) ∧
    ∃ s1, quickSort 5 (State.mk twoEqual []) 0 1 = .ok s1 ∧
      s1.bids = [mkBid "2" "A", mkBid "1" "A"] ∧ s1.bids ≠ twoEqual := by
  constructor
  · intro i x y h1 h2 hx hy
    have hi : i = 0 := by omega
    subst hi
    have ex : x = mkBid "1" "A" := by
      have : getI twoEqual 0 = some (mkBid "1" "A") := by decide
      rw [this] at hx; exact (Option.some.inj hx).symm
    have ey : y = mkBid "2" "A" := by
      have : getI twoEqual (0 + 1) = some (mkBid "2" "A") := by decide
      rw [this] at hy; exact (Option.some.inj hy).symm
    subst ex ey
    exact le_refl _
  · exact ⟨_, rfl, by decide, by decide⟩

/-- C8 (amended): for a collection of size `1 ≤ n ≤ 2 ^ 30 + 1` already in
ascending order of title (equal titles allowed), `quickSort(bids, 0, n-1)`
returns a permutation of the input whose title sequence is identical to the
input's position by position, and every record whose title no other position
carries stays at its position. Records that share a title may be exchanged. -/
theorem quickSort_sorted_titles (fuel : Nat) (s : State)
    (hn : 1 ≤ s.bids.length) (h30 : s.bids.length ≤ 2 ^ 30 + 1)
    (hsorted : ∀ i x y, (0 : Int) ≤ i → i < (s.bids.length : Int) - 1 → getI s.bids i = some x →
      getI s.bids (i + 1) = some y → x.title ≤ y.title)
    (hfuel : s.bids.length + 3 ≤ fuel) :
    ∃ s1, quickSort fuel s 0 ((s.bids.length : Int) - 1) = .ok s1 ∧
      s1.bids.Perm s.bids ∧ titles s1.bids = titles s.bids ∧
      (∀ i x, getI s.bids i = some x →
        (∀ j y, getI s.bids j = some y → y.title = x.title → j = i) →
        getI s1.bids i = some x) := by
  obtain ⟨s1, hrun, hsw, hsorted1⟩ :=
    quickSort_spec fuel s 0 ((s.bids.length : Int) - 1) (le_refl _) (by omega) (by omega)
      (by omega) (by omega)
  have hl : s1.bids.length = s.bids.length := hsw.length_eq
  have ht : titles s1.bids = titles s.bids :=
    titles_eq_of_sorted_perm hsw.perm hsorted (by rw [hl]; exact hsorted1)
  refine ⟨s1, hrun, hsw.perm, ht, ?_⟩
  intro i x hx huniq
  have hb := getI_bounds hx
  obtain ⟨z, hz⟩ := @getI_exists s1.bids i hb.1 (by rw [hl]; exact hb.2)
  have hzt : z.title = x.title := getI_title_of_titles_eq ht hx hz
  obtain ⟨j, hj⟩ := exists_getI_of_mem (hsw.perm.subset (mem_of_getI hz))
  have hji : j = i := huniq j z hj hzt
  subst hji
  rw [hx] at hj; cases hj
  exact hz

theorem aab_sorted :
    ∀ i x y, (0 : Int) ≤ i → i < ((State.mk aab []).bids.length : Int) - 1 →
      getI (State.mk aab []).bids i = some x →
      getI (State.mk aab []).bids (i + 1) = some y → x.title ≤ y.title := by
  intro i x y h1 h2 hx hy
  have h3 : i < 2 := h2
  have hA : (mkBid "1" "A").title ≤ (mkBid "2" "A").title := le_refl _
  have hB : (mkBid "2" "A").title ≤ (mkBid "3" "B").title :=
    le_of_lt (strLt_iff.mp (by decide))
  rcases (by omega : i = 0 ∨ i = 1) with hi | hi
  · subst hi
    have ex : getI aab 0 = some (mkBid "1" "A") := by decide
    have ey : getI aab (0 + 1) = some (mkBid "2" "A") := by decide
    cases (ex.symm.trans hx)
    cases (ey.symm.trans hy)
    exact hA
  · subst hi
    have ex : getI aab 1 = some (mkBid "2" "A") := by decide
    have ey : getI aab (1 + 1) = some (mkBid "3" "B") := by decide
    cases (ex.symm.trans hx)
    cases (ey.symm.trans hy)
    exact hB

theorem quickSort_sorted_titles_witness :
    (1 ≤ (State.mk aab []).bids.length ∧ (State.mk aab []).bids.length ≤ 2 ^ 30 + 1 ∧
      (∀ i x y, (0 : Int) ≤ i → i < ((State.mk aab []).bids.length : Int) - 1 →
        getI (State.mk aab []).bids i = some x →
        getI (State.mk aab []).bids (i + 1) = some y → x.title ≤ y.title) ∧
      (State.mk aab []).bids.length + 3 ≤ 6) ∧
    (∃ s1, quickSort 6 (State.mk aab []) 0 (((State.mk aab []).bids.length : Int) - 1)
        = .ok s1 ∧
      s1.bids.Perm (State.mk aab []).bids ∧
      titles s1.bids = titles (State.mk aab []).bids ∧
      (∀ i x, getI (State.mk aab []).bids i = some x →
        (∀ j y, getI (State.mk aab []).bids j = some y → y.title = x.title → j = i) →
        getI s1.bids i = some x)) ∧
    (getI aab 2 = some (mkBid "3" "B") ∧
      (quickSort 6 (State.mk aab []) 0 2).toOption.map (fun s1 => s1.bids)
        = some [mkBid "2" "A", mkBid "1" "A", mkBid "3" "B"]) :=
  ⟨⟨by decide, by decide, aab_sorted, by decide⟩,
    quickSort_sorted_titles 6 (State.mk aab []) (by decide) (by decide) aab_sorted (by decide),
    by decide, by decide⟩

/-- C15: `selectionSort` is not stable. On the records `("1","B")`, `("2","B")`,
`("3","A")` it returns `("3","A")`, `("2","B")`, `("1","B")`: the two records
with title `B` and different identifiers come out in the opposite relative
order. -/
theorem selectionSort_not_stable :
    ∃ s1, selectionSort 4 (State.mk bba []) = .ok s1 ∧
      s1.bids = [mkBid "3" "A", mkBid "2" "B", mkBid "1" "B"] ∧
      ∃ (i j i1 j1 : Int) (a b : Bid), a.title = b.title ∧ a.bidId ≠ b.bidId ∧
        getI bba i = some a ∧ getI bba j = some b ∧ i < j ∧
        getI s1.bids i1 = some a ∧ getI s1.bids j1 = some b ∧ j1 < i1 :=
  ⟨_, rfl, by decide, 0, 1, 2, 1, mkBid "1" "B", mkBid "2" "B", by decide, by decide,
    by decide, by decide, by decide, by decide, by decide, by decide⟩

end VectorSorting
